import Mathlib

/-!
# Verification of the llm-coding-reliability-analyzer pipeline

Shallow embedding of `coding_quality_checker_EN.py` (and the report section of
`statistical_comparison_analyzer_EN.py`), together with proofs about the
embedded definitions.

Conventions of the embedding:
* A pandas cell holding a categorical code is `Cell := Option String`;
  `none` models a missing value (`NaN`).
* A data frame after column resolution is a `List Row`, one `Row` per line of
  the input file, holding the rater ("AI") cells in column order, the
  reference ("human") cell and the comment string.  A labeled frame
  (`List (Nat × Row)`) additionally carries the pandas index label of each
  row; `read_csv(header=None)` labels rows `0, 1, 2, …`.
* Machine floats are embedded as `ℚ`; the float `NaN` produced by a
  division `0/0` is embedded as `none : Option ℚ`.
* Python exceptions are embedded as `Except PyError`.
-/

namespace CodingQuality

/-- A categorical code (the values of the valid-category set, e.g. "a", "b"). -/
abbrev Cat := String

/-- One pandas cell of a rater or reference column: `none` models `NaN`. -/
abbrev Cell := Option String

/-- One row of the annotation table after column resolution: the rater cells
(`ai_columns`, in order), the reference cell (`human_column`) and the comment
field (`"No comment available"` when the file has no comment column). -/
structure Row where
  ai : List Cell
  human : Cell
  comment : String
deriving DecidableEq

/-- The values of a row that validation and `dropna` look at:
`ai_columns + [human_column]` (line 18 / line 139 of the source). -/
def rowValues (r : Row) : List Cell := r.ai ++ [r.human]

/-- `row[col] in valid_categories` for one cell.  A missing value (`NaN`) is
never an element of the valid-category list, so it yields `false`. -/
def cellValid (cats : List Cat) : Cell → Bool
  | none => false
  | some s => cats.contains s

/-- `all(row[col] in valid_categories for col in ai_columns + [human_column])`
(line 18 of the source). -/
def rowValid (cats : List Cat) (r : Row) : Bool :=
  (rowValues r).all (cellValid cats)

/-- The scan of `validate_data` (lines 15–21) starting at row label `i`:
returns `none` when every remaining row is valid, otherwise the 1-based index
`i+1` of the first offending row together with the list of its rater and
reference values (the data printed in the error message), without looking at
any later row. -/
def validateFrom (cats : List Cat) (i : Nat) : List Row → Option (Nat × List Cell)
  | [] => none
  | r :: rest =>
    if rowValid cats r then validateFrom cats (i + 1) rest
    else some (i + 1, rowValues r)

/-- `validate_data(df, ai_columns, human_column, valid_categories)`
(lines 15–21).  The source returns `False` after printing the offending row's
1-based index and values; the embedding returns that failure data, and `none`
for a successful validation (`True`).  `validate_data` is called before any
row is dropped, so the iteration labels are the positions `0, 1, 2, …`. -/
def validate_data (df : List Row) (cats : List Cat) : Option (Nat × List Cell) :=
  validateFrom cats 0 df

/-- Attach pandas index labels `i, i+1, …` to consecutive rows. -/
def labelFrom (i : Nat) : List Row → List (Nat × Row)
  | [] => []
  | r :: rest => (i, r) :: labelFrom (i + 1) rest

/-- The data frame produced by `pd.read_csv(..., header=None)` after column
resolution: rows labeled `0, 1, 2, …` in file order. -/
def loadedDf (rows : List Row) : List (Nat × Row) := labelFrom 0 rows

/-- `df.dropna(subset=ai_columns + [human_column])` (line 139): keep the rows
without a missing rater or reference value; labels are preserved. -/
def dropMissing (df : List (Nat × Row)) : List (Nat × Row) :=
  df.filter (fun p => (rowValues p.2).all (fun c => c.isSome))

/-- `df.loc[l, ·]` on a labeled frame: the row carrying label `l`
(`none` models the `KeyError` raised for an absent label). -/
def loc (df : List (Nat × Row)) (l : Nat) : Option Row :=
  (df.find? (fun p => p.1 == l)).map (fun p => p.2)

/-- Python `==` on two cells, with float-`NaN` semantics: a missing value
compares unequal to everything, including itself. -/
def cellEq : Cell → Cell → Bool
  | some a, some b => a == b
  | _, _ => false

/-- Python `!=` on two cells (`ai_code != human_code`, line 40). -/
def cellNe (x y : Cell) : Bool := !(cellEq x y)

/-- The loop of `calculate_ai_human_disagreement_rate` (lines 35–42) starting
at position `i`: collect `(i + 1, comment, ai codes, human code)` for every
row in which some rater cell differs from the reference cell. -/
def disagreementsFrom (i : Nat) : List Row → List (Nat × String × List Cell × Cell)
  | [] => []
  | r :: rest =>
    if r.ai.any (fun c => cellNe c r.human) then
      (i + 1, r.comment, r.ai, r.human) :: disagreementsFrom (i + 1) rest
    else
      disagreementsFrom (i + 1) rest

/-- The `ai_human_disagreements` list built by lines 35–42. -/
def ai_human_disagreements (rows : List Row) : List (Nat × String × List Cell × Cell) :=
  disagreementsFrom 0 rows

/-- `calculate_ai_human_disagreement_rate` (lines 23–46): the tuple
`(disagreement_rate, disagreement_count, total_cases, ai_human_disagreements)`.
`disagreement_count` is incremented exactly when a case is appended, so it
equals the length of the disagreement list. -/
def calculate_ai_human_disagreement_rate (rows : List Row) :
    ℚ × Nat × Nat × List (Nat × String × List Cell × Cell) :=
  let ds := ai_human_disagreements rows
  let total := rows.length
  let count := ds.length
  (if 0 < total then (count : ℚ) / (total : ℚ) else 0, count, total, ds)

/-- The loop of lines 66–69 starting at position `i`: collect
`(i + 1, comment, ai codes)` for every row whose rater cells take more than
one distinct value (`len(set(ai_codes[i])) > 1`). -/
def internalFrom (i : Nat) : List Row → List (Nat × String × List Cell)
  | [] => []
  | r :: rest =>
    if 1 < r.ai.dedup.length then
      (i + 1, r.comment, r.ai) :: internalFrom (i + 1) rest
    else
      internalFrom (i + 1) rest

/-- The `ai_internal_disagreements` list built by lines 66–69. -/
def ai_internal_disagreements (rows : List Row) : List (Nat × String × List Cell) :=
  internalFrom 0 rows

/-- The number of positions at which two equal-length series agree
(the diagonal mass of the confusion matrix). -/
def matchCount {α : Type} [DecidableEq α] : List α → List α → Nat
  | x :: xs, y :: ys => (if x = y then 1 else 0) + matchCount xs ys
  | _, _ => 0

/-- `sklearn.metrics.cohen_kappa_score(y1, y2)` (library call at lines 55, 62,
74–75): unweighted Cohen's kappa `(p_o - p_e) / (1 - p_e)` over nominal
categories, where `p_o` is the observed agreement probability and `p_e` the
expected-by-chance agreement probability from the two marginal distributions.
When `1 - p_e = 0` (both series constant with the same value) the library's
division yields the float `NaN` without raising; the embedding returns `none`
in that case (and for an empty input, where the library also produces `NaN`). -/
def cohen_kappa_score {α : Type} [DecidableEq α] (y1 y2 : List α) : Option ℚ :=
  let n := y1.length
  if n = 0 then none
  else
    let po : ℚ := (matchCount y1 y2 : ℚ) / (n : ℚ)
    let s : Nat := (((y1 ++ y2).dedup).map (fun c => y1.count c * y2.count c)).sum
    let pe : ℚ := (s : ℚ) / ((n : ℚ) ^ 2)
    if pe = 1 then none else some ((po - pe) / (1 - pe))

/-- `np.mean` over a list of kappa values: `NaN` (`none`) for an empty list and
whenever a `NaN` input propagates through the mean. -/
def npMean (l : List (Option ℚ)) : Option ℚ :=
  if l.isEmpty || l.any (fun x => x.isNone) then none
  else some ((l.filterMap (fun x => x)).sum / (l.length : ℚ))

/-- Rater column `j` of the frame: `df[ai_columns].values[:, j]`. -/
def aiColumn (rows : List Row) (j : Nat) : List Cell :=
  rows.map (fun r => (r.ai.get? j).getD none)

/-- The reference column of the frame: `df[human_column].values`. -/
def humanColumn (rows : List Row) : List Cell :=
  rows.map (fun r => r.human)

/-- The index pairs `(i, j)` with `i < j` visited by the nested loops of
lines 60–62, in loop order. -/
def intraPairs (nAi : Nat) : List (Nat × Nat) :=
  (List.range nAi).flatMap (fun i => ((List.range nAi).filter (fun j => i < j)).map (fun j => (i, j)))

/-- The tuple returned by `calculate_inter_rater_reliability` (lines 48–81). -/
structure Reliability where
  inter_mean_kappa : Option ℚ
  inter_kappas : List (Option ℚ)
  intra_mean_kappa : Option ℚ
  intra_kappas : List (Option ℚ)
  internal_disagreements : List (Nat × String × List Cell)
  coder_mean_kappa : List (Option ℚ)
  disagreement_info : ℚ × Nat × Nat × List (Nat × String × List Cell × Cell)

/-- `calculate_inter_rater_reliability(df, ai_columns, human_column)`
(lines 48–81), with `nAi` the number of rater columns. -/
def calculate_inter_rater_reliability (rows : List Row) (nAi : Nat) : Reliability :=
  let inter := (List.range nAi).map (fun i => cohen_kappa_score (humanColumn rows) (aiColumn rows i))
  let intra := (intraPairs nAi).map (fun p => cohen_kappa_score (aiColumn rows p.1) (aiColumn rows p.2))
  { inter_mean_kappa := npMean inter
    inter_kappas := inter
    intra_mean_kappa := if intra.isEmpty then some 0 else npMean intra
    intra_kappas := intra
    internal_disagreements := ai_internal_disagreements rows
    coder_mean_kappa := (List.range nAi).map (fun i =>
      npMean ((((List.range nAi).filter (fun j => !(j == i))).map
          (fun j => cohen_kappa_score (aiColumn rows i) (aiColumn rows j)))
        ++ [cohen_kappa_score (aiColumn rows i) (humanColumn rows)]))
    disagreement_info := calculate_ai_human_disagreement_rate rows }

/-- One row of the `<input-stem>_results.csv` table built at lines 261–273:
the index label written under the header `row`, the `final_coding` column
(always the reference code, line 152), the two agreement flags, the comment,
and one `coder_<col>` column per rater plus the reference. -/
structure CsvRow where
  row : Nat
  final_coding : Cell
  ai_human_agreement : Bool
  ai_internal_agreement : Bool
  comment : String
  coders : List Cell
deriving DecidableEq

/-- The exceptions `analyze_coding_agreement` can raise on an in-memory table
(file-system and decoding failures are outside this embedding):
the empty-file check of line 116, the `ValueError` of line 136 raised after
`validate_data` reported a row (carried here with the reported row data), the
post-drop emptiness check of line 141, and the Python unbound-local error
raised when a local variable is read before its assignment. -/
inductive PyError
  | emptyFile
  | invalidDataFormat (rowIndex : Nat) (values : List Cell)
  | noValidData
  | unboundLocal (localName : String)
deriving DecidableEq

/-- The value of the function-local variable `human_codes` when control
reaches the CSV construction at line 261 of `analyze_coding_agreement`: the
only assignment to `human_codes` inside that function is at line 269, *after*
the read inside the dict comprehension at line 263, so at this point the local
is still unassigned (`none`). -/
def humanCodesAtCsvStep : Option (List Cell) := none

/-- What the comprehensions of lines 261–272 build once `human_codes` holds a
value `hc`: for the row at position `i` with label `l`, the flags
`human_codes[i] == ai_codes[i][0] and len(set(ai_codes[i])) == 1` and
`len(set(ai_codes[i])) == 1`, the reference code as `final_coding`, the
comment, and the `coder_<col>` columns. -/
def csvRowsFrom (i : Nat) (df : List (Nat × Row)) (hc : List Cell) : List CsvRow :=
  match df with
  | [] => []
  | (l, r) :: rest =>
    { row := l
      final_coding := r.human
      ai_human_agreement :=
        cellEq ((hc.get? i).getD none) ((r.ai.get? 0).getD none) && (r.ai.dedup.length == 1)
      ai_internal_agreement := (r.ai.dedup.length == 1)
      comment := r.comment
      coders := r.ai ++ [r.human] } :: csvRowsFrom (i + 1) rest hc

/-- The CSV construction step (lines 259–273).  The comprehension at line 263
reads the local `human_codes` first; since that local is unassigned at this
point (`humanCodesAtCsvStep`), the step raises the unbound-local error and the
`_results.csv` file is never written. -/
def resultCsvStep (df : List (Nat × Row)) : Except PyError (List CsvRow) :=
  match humanCodesAtCsvStep with
  | none => Except.error (PyError.unboundLocal "human_codes")
  | some hc => Except.ok (csvRowsFrom 0 df hc)

/-- `analyze_coding_agreement` on an in-memory table (lines 115–273, after the
file has been read and the columns resolved): the empty-file check, the
validation pass, the missing-value drop with its emptiness check, the
reliability computation, and the CSV construction step.  The text report of
lines 205–257 is written before the CSV step and does not influence the
result value. -/
def analyze_coding_agreement (rows : List Row) (cats : List Cat) :
    Except PyError (List (Nat × Row) × Reliability × List CsvRow) :=
  if rows.isEmpty then Except.error PyError.emptyFile
  else
    match validate_data rows cats with
    | some e => Except.error (PyError.invalidDataFormat e.1 e.2)
    | none =>
      let df := dropMissing (loadedDf rows)
      if df.isEmpty then Except.error PyError.noValidData
      else
        let rel := calculate_inter_rater_reliability (df.map (fun p => p.2))
          ((rows.head?.map (fun r => r.ai.length)).getD 0)
        match resultCsvStep df with
        | Except.error e => Except.error e
        | Except.ok csv => Except.ok (df, rel, csv)

/-- The 4-row, 3-raters-plus-reference table of end-to-end scenario 1:
rows (a,a,a,a), (a,b,a,a), (b,b,b,b), (a,a,b,a), last column the reference.
With exactly `len(ai_columns) + 1` columns the source gives every row the
placeholder comment (line 132). -/
def scenarioRows : List Row :=
  [ ⟨[some "a", some "a", some "a"], some "a", "No comment available"⟩
  , ⟨[some "a", some "b", some "a"], some "a", "No comment available"⟩
  , ⟨[some "b", some "b", some "b"], some "b", "No comment available"⟩
  , ⟨[some "a", some "a", some "b"], some "a", "No comment available"⟩ ]

/-- Modelled from the spec: `get_significance_symbol`, referenced as
`self.get_significance_symbol` in `save_results_optimized` but not present
under `src/`.  "A symbol function maps a (possibly corrected) p-value to a
conventional significance marker (three tiers of threshold, plus
not significant)": the conventional tiers 0.001, 0.01, 0.05. -/
def get_significance_symbol (p : ℚ) : String :=
  if p < 1 / 1000 then "***"
  else if p < 1 / 100 then "**"
  else if p < 1 / 20 then "*"
  else "ns"

/-- One line of the comparison report (`save_results_optimized`) that displays
a p-value: its label, whether the displayed value is a Benjamini-Hochberg
corrected p-value, the p-value itself, and the significance marker printed on
the same line (`none` when the line prints no marker). -/
structure PDisplay where
  label : String
  corrected : Bool
  p : ℚ
  symbol : Option String
deriving DecidableEq

/-- The p-value-displaying lines of the statistical-comparison section written
by `save_results_optimized` (`statistical_comparison_analyzer_EN.py`,
lines 73–88), one entry per `f.write` whose format string contains a p-value
field, in file order.  Lines 75, 76 and 78 print the raw t-test and Z-test
p-values with no call to `get_significance_symbol`; lines 83–85 print the
corrected p-values and lines 87–88 the Mann-Whitney p-values, each followed by
`self.get_significance_symbol(...)` of the same p-value. -/
def comparisonReportPDisplays (pInterT pIntraT pZ c0 c1 c2 mwInter mwIntra : ℚ) :
    List PDisplay :=
  [ ⟨"Inter-rater Comparison", false, pInterT, none⟩
  , ⟨"Intra-rater Comparison", false, pIntraT, none⟩
  , ⟨"AI-Human Disagreement Rate Comparison", false, pZ, none⟩
  , ⟨"Inter-rater Comparison (Corrected)", true, c0, some (get_significance_symbol c0)⟩
  , ⟨"Intra-rater Comparison (Corrected)", true, c1, some (get_significance_symbol c1)⟩
  , ⟨"AI-Human Disagreement Rate Comparison (Corrected)", true, c2,
      some (get_significance_symbol c2)⟩
  , ⟨"Inter-rater Mann-Whitney U", false, mwInter, some (get_significance_symbol mwInter)⟩
  , ⟨"Intra-rater Mann-Whitney U", false, mwIntra, some (get_significance_symbol mwIntra)⟩ ]

/-! ## Path sanitization (`clean_path`, lines 8–13)

`clean_path` chains three library calls:
`unicodedata.normalize('NFKC', path)`, a filter dropping every character whose
Unicode general category starts with `C`, and `os.path.normpath`.  The three
library functions are modelled below on `List Char`, restricted to a fragment
of Unicode that is exact on every code point appearing in this development. -/

/-- U+0301 COMBINING ACUTE ACCENT (category Mn, not a control character). -/
def acuteChar : Char := Char.ofNat 0x0301

/-- U+00E1 LATIN SMALL LETTER A WITH ACUTE, the canonical composition of
`'a'` followed by `acuteChar`. -/
def aAcuteChar : Char := Char.ofNat 0xE1

/-- U+200D ZERO WIDTH JOINER, a format character (general category Cf). -/
def zwjChar : Char := Char.ofNat 0x200D

/-- Modelled from `unicodedata.category(c)[0] == 'C'` (the test of line 11),
restricted to Basic Latin, Latin-1 and the general-punctuation format
characters: the C0 and C1 control ranges (Cc), soft hyphen (Cf), the
U+200B–U+200F and U+202A–U+202E and U+2060–U+2064 format ranges (Cf), and
U+FEFF (Cf).  Exact on every code point used in this development. -/
def isUnicodeControl (c : Char) : Bool :=
  c.val < 0x20 || (0x7F ≤ c.val && c.val ≤ 0x9F) || c.val == 0xAD ||
  (0x200B ≤ c.val && c.val ≤ 0x200F) || (0x202A ≤ c.val && c.val ≤ 0x202E) ||
  (0x2060 ≤ c.val && c.val ≤ 0x2064) || c.val == 0xFEFF

/-- Modelled from `unicodedata.normalize('NFKC', ·)` (line 10), restricted to
the alphabet of this development: here the only applicable normalization step
is the canonical composition of `'a'` immediately followed by U+0301 into
U+00E1; every other character in the fragment is normalization-inert, and any
character standing between `'a'` and U+0301 (such as the format character
U+200D) blocks the composition. -/
def nfkc : List Char → List Char
  | [] => []
  | [c] => [c]
  | c₁ :: c₂ :: rest =>
    if c₁ = 'a' ∧ c₂ = acuteChar then aAcuteChar :: nfkc rest
    else c₁ :: nfkc (c₂ :: rest)

/-- `path.split('/')` on character lists (as used by `posixpath.normpath`). -/
def splitSlash : List Char → List (List Char)
  | [] => [[]]
  | c :: rest =>
    if c = '/' then [] :: splitSlash rest
    else
      match splitSlash rest with
      | g :: gs => (c :: g) :: gs
      | [] => [[c]]

/-- `'/'.join(comps)` on character lists. -/
def joinSlash : List (List Char) → List Char
  | [] => []
  | [g] => g
  | g :: g' :: t => g ++ '/' :: joinSlash (g' :: t)

/-- The path component `"."`. -/
def dotComp : List Char := ['.']

/-- The path component `".."`. -/
def dotdotComp : List Char := ['.', '.']

/-- The component loop of `posixpath.normpath`: `k` is `initial_slashes`
(0, 1 or 2), `acc` is `new_comps`.  Empty and `"."` components are skipped;
a component is appended unless it is `".."` arriving when neither "relative
path with empty `new_comps`" nor "last kept component is `..`" holds, in
which case the last kept component is popped (or, for an absolute path with
nothing kept, the `".."` is discarded). -/
def reduceComps (k : Nat) (acc : List (List Char)) : List (List Char) → List (List Char)
  | [] => acc
  | comp :: rest =>
    if comp = [] ∨ comp = dotComp then reduceComps k acc rest
    else if ¬ comp = dotdotComp ∨ (k = 0 ∧ acc = []) ∨ acc.getLast? = some dotdotComp then
      reduceComps k (acc ++ [comp]) rest
    else
      reduceComps k acc.dropLast rest

/-- The `initial_slashes` count of `posixpath.normpath`: 2 exactly when the
path starts with `"//"` but not `"///"`, else 1 when it starts with `"/"`,
else 0. -/
def initialSlashes (p : List Char) : Nat :=
  if p.head? = some '/' then
    if p.take 2 = ['/', '/'] ∧ ¬ p.take 3 = ['/', '/', '/'] then 2 else 1
  else 0

/-- Modelled from `os.path.normpath` (line 12) in its POSIX form
(`posixpath.normpath`): an empty path becomes `"."`; the components are
reduced by `reduceComps` and re-joined with `'/'`, keeping the initial
slashes; an empty result becomes `"."`. -/
def normpath (p : List Char) : List Char :=
  if p = [] then dotComp
  else
    let path := List.replicate (initialSlashes p) '/'
      ++ joinSlash (reduceComps (initialSlashes p) [] (splitSlash p))
    if path = [] then dotComp else path

/-- `clean_path` (lines 8–13): NFKC-normalize, strip every character of a
`C` general category, then normalize the path. -/
def clean_path (p : List Char) : List Char :=
  normpath ((nfkc p).filter (fun c => !(isUnicodeControl c)))

/-- The input witnessing non-idempotence of `clean_path`: the letter `'a'`,
then the format character U+200D, then the combining accent U+0301.  The
format character blocks the NFKC composition on the first pass and is then
stripped, so the second pass composes the now-adjacent pair. -/
def cexPath : List Char := ['a', zwjChar, acuteChar]

/-! ## Helper lemmas about the validation scan -/

theorem validateFrom_append (cats : List Cat) (pre rest : List Row)
    (h : ∀ r ∈ pre, rowValid cats r = true) (i : Nat) :
    validateFrom cats i (pre ++ rest) = validateFrom cats (i + pre.length) rest := by
  induction pre generalizing i with
  | nil => simp [validateFrom]
  | cons r pre ih =>
    have hr : rowValid cats r = true := h r (List.mem_cons_self r pre)
    have hpre : ∀ r' ∈ pre, rowValid cats r' = true :=
      fun r' hr' => h r' (List.mem_cons_of_mem r hr')
    simp only [List.cons_append, validateFrom, hr, if_true]
    have h2 := ih hpre (i + 1)
    have h3 : i + (r :: pre).length = i + 1 + pre.length := by
      simp only [List.length_cons]; omega
    rw [h3]
    exact h2

theorem validateFrom_eq_none (cats : List Cat) (rows : List Row) (i : Nat)
    (h : validateFrom cats i rows = none) : ∀ r ∈ rows, rowValid cats r = true := by
  induction rows generalizing i with
  | nil => intro r hr; cases hr
  | cons r rest ih =>
    intro r' hr'
    by_cases hv : rowValid cats r = true
    · rcases List.mem_cons.mp hr' with h1 | h2
      · exact h1 ▸ hv
      · have := h
        simp only [validateFrom, hv, if_true] at this
        exact ih (i + 1) this r' h2
    · exfalso
      simp only [validateFrom, hv, if_false] at h
      exact Option.some_ne_none _ h

theorem validate_data_none_all_valid (rows : List Row) (cats : List Cat)
    (h : validate_data rows cats = none) : ∀ r ∈ rows, rowValid cats r = true :=
  validateFrom_eq_none cats rows 0 h

theorem rowValid_no_missing (cats : List Cat) (r : Row) (h : rowValid cats r = true) :
    (rowValues r).all (fun c => c.isSome) = true := by
  simp only [rowValid, List.all_eq_true] at h
  simp only [List.all_eq_true]
  intro c hc
  have := h c hc
  cases c with
  | none => simp [cellValid] at this
  | some s => rfl

theorem rowValid_false_of_missing (cats : List Cat) (r : Row) (h : none ∈ rowValues r) :
    rowValid cats r = false := by
  rw [rowValid, List.all_eq_false]
  exact ⟨none, h, by simp [cellValid]⟩

/-! ## Helper lemmas about labeled frames -/

theorem labelFrom_mem_snd {p : Nat × Row} {rows : List Row} {i : Nat}
    (h : p ∈ labelFrom i rows) : p.2 ∈ rows := by
  induction rows generalizing i with
  | nil => cases h
  | cons r rest ih =>
    rcases List.mem_cons.mp h with h1 | h2
    · subst h1; exact List.mem_cons_self _ _
    · exact List.mem_cons_of_mem _ (ih h2)

theorem dropMissing_eq_self (df : List (Nat × Row))
    (h : ∀ p ∈ df, (rowValues p.2).all (fun c => c.isSome) = true) :
    dropMissing df = df :=
  List.filter_eq_self.mpr h

theorem find?_labelFrom (rows : List Row) (i j : Nat) (hj : j < rows.length) :
    (labelFrom i rows).find? (fun p => p.1 == i + j)
      = (rows.get? j).map (fun r => (i + j, r)) := by
  induction rows generalizing i j with
  | nil => simp at hj
  | cons r rest ih =>
    cases j with
    | zero => simp [labelFrom, List.find?]
    | succ j' =>
      have hne : (i == i + (j' + 1)) = false := by
        simp only [beq_eq_false_iff_ne, ne_eq]
        omega
      have hrec := ih (i + 1) j' (by simpa using hj)
      simp only [labelFrom, List.find?, hne]
      rw [show i + (j' + 1) = (i + 1) + j' by omega]
      simpa using hrec

theorem loc_loadedDf (rows : List Row) (j : Nat) (hj : j < rows.length) :
    loc (loadedDf rows) j = rows.get? j := by
  have := find?_labelFrom rows 0 j hj
  simp only [Nat.zero_add] at this
  simp only [loc, loadedDf, this]
  cases h : rows.get? j with
  | none => rfl
  | some r => rfl

/-! ## Helper lemmas about the disagreement scans -/

theorem disagreementsFrom_fst_gt {j i : Nat} {rows : List Row}
    (h : j ∈ (disagreementsFrom i rows).map (fun t => t.1)) : i < j := by
  induction rows generalizing i with
  | nil => simp [disagreementsFrom] at h
  | cons r rest ih =>
    by_cases hd : r.ai.any (fun c => cellNe c r.human) = true
    · simp only [disagreementsFrom, hd, if_true, List.map_cons, List.mem_cons] at h
      rcases h with h1 | h2
      · omega
      · have := ih h2; omega
    · simp only [disagreementsFrom, Bool.not_eq_true] at hd
      simp only [disagreementsFrom, hd, if_false] at h
      have := ih h; omega

theorem disagreementsFrom_mem_iff (rows : List Row) (i n : Nat) (r : Row)
    (hn : rows.get? n = some r) :
    ((i + n + 1) ∈ (disagreementsFrom i rows).map (fun t => t.1))
      ↔ r.ai.any (fun c => cellNe c r.human) = true := by
  induction rows generalizing i n with
  | nil => simp at hn
  | cons r₀ rest ih =>
    cases n with
    | zero =>
      have hr : r₀ = r := by simpa using hn
      subst hr
      by_cases hd : r₀.ai.any (fun c => cellNe c r₀.human) = true
      · simp [disagreementsFrom, hd]
      · simp only [Bool.not_eq_true] at hd
        simp only [disagreementsFrom, hd, if_false, Bool.false_eq_true, iff_false]
        intro hmem
        have := disagreementsFrom_fst_gt hmem
        omega
    | succ n' =>
      have hn' : rest.get? n' = some r := by simpa using hn
      have hrec := ih (i + 1) n' hn'
      have harith : i + 1 + n' + 1 = i + (n' + 1) + 1 := by omega
      rw [harith] at hrec
      by_cases hd : r₀.ai.any (fun c => cellNe c r₀.human) = true
      · simp only [disagreementsFrom, hd, if_true, List.map_cons, List.mem_cons]
        rw [← hrec]
        constructor
        · rintro (h1 | h2)
          · omega
          · exact h2
        · exact fun h => Or.inr h
      · simp only [Bool.not_eq_true] at hd
        simp only [disagreementsFrom, hd, if_false]
        exact hrec

theorem disagreementsFrom_length_le (i : Nat) (rows : List Row) :
    (disagreementsFrom i rows).length ≤ rows.length := by
  induction rows generalizing i with
  | nil => simp [disagreementsFrom]
  | cons r rest ih =>
    by_cases hd : r.ai.any (fun c => cellNe c r.human) = true
    · simp only [disagreementsFrom, hd, if_true, List.length_cons]
      exact Nat.succ_le_succ (ih (i + 1))
    · simp only [Bool.not_eq_true] at hd
      simp only [disagreementsFrom, hd, if_false, List.length_cons]
      exact Nat.le_succ_of_le (ih (i + 1))

theorem internalFrom_mem {e : Nat × String × List Cell} {rows : List Row} {i : Nat}
    (h : e ∈ internalFrom i rows) :
    ∃ j r, rows.get? j = some r ∧ e = (i + j + 1, r.comment, r.ai)
      ∧ 1 < r.ai.dedup.length := by
  induction rows generalizing i with
  | nil => cases h
  | cons r rest ih =>
    by_cases hd : 1 < r.ai.dedup.length
    · simp only [internalFrom, if_pos hd, List.mem_cons] at h
      rcases h with h1 | h2
      · exact ⟨0, r, rfl, by simpa using h1, hd⟩
      · obtain ⟨j, r', hget, he, hdd⟩ := ih h2
        exact ⟨j + 1, r', by simpa using hget, by rw [he]; congr 1; omega, hdd⟩
    · simp only [internalFrom, if_neg hd] at h
      obtain ⟨j, r', hget, he, hdd⟩ := ih h
      exact ⟨j + 1, r', by simpa using hget, by rw [he]; congr 1; omega, hdd⟩

/-! ## Claims about the single-file analysis pipeline -/

/-- C1: the claim says the single-file analysis run writes a
`<input-stem>_results.csv` with one row per case for every input passing
loading and validation.  In the source the dict comprehension at line 263
reads the function-local `human_codes`, whose only assignment is at line 269,
so every run that passes validation raises the unbound-local error at the CSV
construction step and no results CSV is written; here evaluated on the valid
scenario-1 table. -/
theorem c1_results_csv_never_written :
    analyze_coding_agreement scenarioRows ["a", "b"]
      = Except.error (PyError.unboundLocal "human_codes") := rfl

/-- C2 (counterexample): the claim says a row with a missing rater or
reference value is silently dropped after the category-validation pass.  On
the concrete two-row table whose second row has a missing reference cell, the
validation pass itself fails at that row (a missing value is not in the
valid-category set), so the run aborts with the validation error even though
dropping the row would have left a nonempty table. -/
theorem c2_missing_value_counterexample :
    validate_data [⟨[some "a"], some "a", "x"⟩, ⟨[some "a"], none, "y"⟩] ["a", "b"]
        = some (2, [some "a", none])
    ∧ analyze_coding_agreement [⟨[some "a"], some "a", "x"⟩, ⟨[some "a"], none, "y"⟩]
        ["a", "b"]
        = Except.error (PyError.invalidDataFormat 2 [some "a", none]) :=
  ⟨rfl, rfl⟩

/-- C2 (amended): a row with a missing value in any rater or reference column
makes the category-validation pass fail (a missing value is never in the
valid-category set), rather than being silently dropped; and on any table that
passes validation the subsequent missing-value drop removes no rows, so the
post-drop emptiness `ValidationError` is unreachable for validated nonempty
tables. -/
theorem c2_missing_rows_fail_validation (rows : List Row) (cats : List Cat) :
    ((∃ r ∈ rows, none ∈ rowValues r) → ¬ validate_data rows cats = none)
    ∧ (validate_data rows cats = none → dropMissing (loadedDf rows) = loadedDf rows) := by
  constructor
  · rintro ⟨r, hr, hnone⟩ hv
    have hvalid := validate_data_none_all_valid rows cats hv r hr
    rw [rowValid_false_of_missing cats r hnone] at hvalid
    exact Bool.false_ne_true hvalid
  · intro hv
    apply dropMissing_eq_self
    intro p hp
    exact rowValid_no_missing cats p.2
      (validate_data_none_all_valid rows cats hv p.2 (labelFrom_mem_snd hp))

/-- Witness for C2's amended theorem at concrete inputs. -/
theorem c2_missing_rows_fail_validation_witness :
    ¬ validate_data [⟨[some "a"], none, "x"⟩] ["a", "b"] = none
    ∧ dropMissing (loadedDf [⟨[some "a"], some "a", "x"⟩])
        = loadedDf [⟨[some "a"], some "a", "x"⟩] :=
  ⟨(c2_missing_rows_fail_validation [⟨[some "a"], none, "x"⟩] ["a", "b"]).1
      ⟨⟨[some "a"], none, "x"⟩, by decide, by decide⟩,
    (c2_missing_rows_fail_validation [⟨[some "a"], some "a", "x"⟩] ["a", "b"]).2 rfl⟩

/-- C3: a row belongs to the AI-human disagreement set iff at least one rater
cell of that row differs from the reference cell (per-row OR across raters),
and on the scenario-1 table the disagreement set is exactly rows 2 and 4 with
disagreement count 2 and rate 1/2. -/
theorem c3_disagreement_set_membership :
    (∀ (rows : List Row) (n : Nat) (r : Row), rows.get? n = some r →
      (((n + 1) ∈ (ai_human_disagreements rows).map (fun t => t.1))
        ↔ r.ai.any (fun c => cellNe c r.human) = true))
    ∧ (ai_human_disagreements scenarioRows).map (fun t => t.1) = [2, 4]
    ∧ (calculate_ai_human_disagreement_rate scenarioRows).2.1 = 2
    ∧ (calculate_ai_human_disagreement_rate scenarioRows).1 = 1 / 2 := by
  refine ⟨?_, by decide, by decide, ?_⟩
  · intro rows n r hn
    have h := disagreementsFrom_mem_iff rows 0 n r hn
    simpa using h
  · have hc : (ai_human_disagreements scenarioRows).length = 2 := by decide
    have hl : scenarioRows.length = 4 := by decide
    have h1 : (calculate_ai_human_disagreement_rate scenarioRows).1
        = ((2 : Nat) : ℚ) / ((4 : Nat) : ℚ) := by
      show (if 0 < scenarioRows.length
          then ((ai_human_disagreements scenarioRows).length : ℚ) / (scenarioRows.length : ℚ)
          else 0) = _
      rw [hc, hl, if_pos (by norm_num : (0 : Nat) < 4)]
    rw [h1]
    norm_num

/-- Witness for C3's theorem: row 2 of the scenario table. -/
theorem c3_disagreement_set_membership_witness :
    ((1 + 1 : Nat) ∈ (ai_human_disagreements scenarioRows).map (fun t => t.1))
      ↔ (Row.mk [some "a", some "b", some "a"] (some "a") "No comment available").ai.any
          (fun c => cellNe c (Row.mk [some "a", some "b", some "a"] (some "a")
            "No comment available").human) = true :=
  c3_disagreement_set_membership.1 scenarioRows 1
    (Row.mk [some "a", some "b", some "a"] (some "a") "No comment available") rfl

/-- C4: validation fails exactly at the first offending row, reporting its
1-based index and its rater and reference values; the rows after the first
offending one have no influence on the result (no later row is scanned). -/
theorem c4_validation_fail_fast (cats : List Cat) (pre : List Row) (bad : Row)
    (rest : List Row) (hpre : ∀ r ∈ pre, rowValid cats r = true)
    (hbad : rowValid cats bad = false) :
    validate_data (pre ++ bad :: rest) cats = some (pre.length + 1, rowValues bad) := by
  rw [validate_data, validateFrom_append cats pre (bad :: rest) hpre 0]
  simp [validateFrom, hbad]

/-- Witness for C4: the value "c" outside the category set, in row 2 of a
three-row table. -/
theorem c4_validation_fail_fast_witness :
    validate_data [⟨[some "a"], some "a", "x"⟩, ⟨[some "c"], some "a", "y"⟩,
        ⟨[some "b"], some "b", "z"⟩] ["a", "b"]
      = some (2, [some "c", some "a"]) :=
  c4_validation_fail_fast ["a", "b"] [⟨[some "a"], some "a", "x"⟩]
    ⟨[some "c"], some "a", "y"⟩ [⟨[some "b"], some "b", "z"⟩]
    (by decide) (by decide)

/-- C6: the disagreement rate equals the size of the disagreement set divided
by the number of rows, is 0 for an empty table, lies in the unit interval,
and for a nonempty table the disagreement count is recovered exactly by
rounding rate × total. -/
theorem c6_disagreement_rate_in_unit_interval (rows : List Row) :
    (calculate_ai_human_disagreement_rate rows).1
        = (if 0 < rows.length then ((ai_human_disagreements rows).length : ℚ) / (rows.length : ℚ)
            else 0)
    ∧ (rows = [] → (calculate_ai_human_disagreement_rate rows).1 = 0)
    ∧ 0 ≤ (calculate_ai_human_disagreement_rate rows).1
    ∧ (calculate_ai_human_disagreement_rate rows).1 ≤ 1
    ∧ (0 < (calculate_ai_human_disagreement_rate rows).2.2.1 →
        round ((calculate_ai_human_disagreement_rate rows).1
            * ((calculate_ai_human_disagreement_rate rows).2.2.1 : ℚ))
          = ((calculate_ai_human_disagreement_rate rows).2.1 : ℤ)) := by
  have hle : (ai_human_disagreements rows).length ≤ rows.length :=
    disagreementsFrom_length_le 0 rows
  have h1 : (calculate_ai_human_disagreement_rate rows).1
      = (if 0 < rows.length
          then ((ai_human_disagreements rows).length : ℚ) / (rows.length : ℚ) else 0) := rfl
  have h2 : (calculate_ai_human_disagreement_rate rows).2.1
      = (ai_human_disagreements rows).length := rfl
  have h3 : (calculate_ai_human_disagreement_rate rows).2.2.1 = rows.length := rfl
  refine ⟨h1, ?_, ?_, ?_, ?_⟩
  · intro h; subst h; rw [h1]; simp
  · rw [h1]
    by_cases h : 0 < rows.length
    · simp only [h, if_true]
      exact div_nonneg (Nat.cast_nonneg _) (Nat.cast_nonneg _)
    · simp [h]
  · rw [h1]
    by_cases h : 0 < rows.length
    · simp only [h, if_true]
      rw [div_le_one (by exact_mod_cast h)]
      exact_mod_cast hle
    · simp [h]
  · intro h
    rw [h3] at h
    rw [h1, h2, h3]
    simp only [h, if_true]
    rw [div_mul_cancel₀]
    · exact round_natCast _
    · exact_mod_cast Nat.pos_iff_ne_zero.mp h

/-- Witness for C6 at the scenario-1 table. -/
theorem c6_disagreement_rate_in_unit_interval_witness :
    (calculate_ai_human_disagreement_rate scenarioRows).1 ≤ 1
    ∧ round ((calculate_ai_human_disagreement_rate scenarioRows).1
        * ((calculate_ai_human_disagreement_rate scenarioRows).2.2.1 : ℚ))
      = ((calculate_ai_human_disagreement_rate scenarioRows).2.1 : ℤ) :=
  ⟨(c6_disagreement_rate_in_unit_interval scenarioRows).2.2.2.1,
    (c6_disagreement_rate_in_unit_interval scenarioRows).2.2.2.2 (by decide)⟩

/-- A one-row table with an internal AI disagreement, used as the C9 witness
input. -/
def wRow : Row := ⟨[some "a", some "b"], some "a", "w"⟩

/-- C9: on any table that passes category validation no rater or reference
cell is missing, so the missing-value drop removes no rows and the frame's
label index stays equal to the 0-based position; hence the label lookup
`df.loc[idx - 1, human_column]` performed in the internal-disagreement report
section returns exactly the row reported under the 1-based index `idx`.  -/
theorem c9_label_index_equals_position (rows : List Row) (cats : List Cat)
    (hv : validate_data rows cats = none) :
    (∀ p ∈ loadedDf rows, (rowValues p.2).all (fun c => c.isSome) = true)
    ∧ dropMissing (loadedDf rows) = loadedDf rows
    ∧ ∀ e ∈ ai_internal_disagreements rows,
        ∃ r, rows.get? (e.1 - 1) = some r ∧ e.2.2 = r.ai
          ∧ loc (dropMissing (loadedDf rows)) (e.1 - 1) = some r := by
  have hall : ∀ p ∈ loadedDf rows, (rowValues p.2).all (fun c => c.isSome) = true :=
    fun p hp => rowValid_no_missing cats p.2
      (validate_data_none_all_valid rows cats hv p.2 (labelFrom_mem_snd hp))
  have hdrop : dropMissing (loadedDf rows) = loadedDf rows := dropMissing_eq_self _ hall
  refine ⟨hall, hdrop, ?_⟩
  intro e he
  obtain ⟨j, r, hget, he2, hdd⟩ := internalFrom_mem he
  have hj : j < rows.length := by
    by_contra hcon
    rw [List.get?_eq_none.mpr (le_of_not_lt hcon)] at hget
    exact Option.noConfusion hget
  have hidx : e.1 - 1 = j := by rw [he2]; omega
  refine ⟨r, ?_, ?_, ?_⟩
  · rw [hidx]; exact hget
  · rw [he2]
  · rw [hdrop, hidx, loc_loadedDf rows j hj, hget]

/-- Witness for C9 on a concrete one-row table with an internal disagreement. -/
theorem c9_label_index_equals_position_witness :
    loc (dropMissing (loadedDf [wRow])) 0 = some wRow := by
  obtain ⟨-, -, h3⟩ := c9_label_index_equals_position [wRow] ["a", "b"] rfl
  obtain ⟨r, hget, hai, hloc⟩ := h3 (1, "w", [some "a", some "b"]) (by decide)
  have hr : r = wRow := by
    have : some wRow = some r := hget
    exact (Option.some.inj this).symm
  rw [hr] at hloc
  exact hloc

/-! ## Helper lemmas about Cohen's kappa -/

theorem cohen_kappa_score_eq {α : Type} [DecidableEq α] (y1 y2 : List α)
    (h : ¬ y1.length = 0) :
    cohen_kappa_score y1 y2 =
      (if ((((y1 ++ y2).dedup).map (fun c => y1.count c * y2.count c)).sum : ℚ)
            / ((y1.length : ℚ) ^ 2) = 1
        then none
        else some (((matchCount y1 y2 : ℚ) / (y1.length : ℚ)
            - ((((y1 ++ y2).dedup).map (fun c => y1.count c * y2.count c)).sum : ℚ)
              / ((y1.length : ℚ) ^ 2))
          / (1 - ((((y1 ++ y2).dedup).map (fun c => y1.count c * y2.count c)).sum : ℚ)
              / ((y1.length : ℚ) ^ 2)))) := by
  simp only [cohen_kappa_score]
  rw [if_neg h]

theorem kappa_of_po_eq_pe {α : Type} [DecidableEq α] (y1 y2 : List α)
    (h : ¬ y1.length = 0)
    (hpe : (matchCount y1 y2 : ℚ) / (y1.length : ℚ)
        = ((((y1 ++ y2).dedup).map (fun c => y1.count c * y2.count c)).sum : ℚ)
          / ((y1.length : ℚ) ^ 2)) :
    cohen_kappa_score y1 y2 = none ∨ cohen_kappa_score y1 y2 = some 0 := by
  rw [cohen_kappa_score_eq y1 y2 h]
  by_cases hc : ((((y1 ++ y2).dedup).map (fun c => y1.count c * y2.count c)).sum : ℚ)
      / ((y1.length : ℚ) ^ 2) = 1
  · left; rw [if_pos hc]
  · right; rw [if_neg hc, hpe, sub_self, zero_div]

theorem matchCount_self {α : Type} [DecidableEq α] (xs : List α) :
    matchCount xs xs = xs.length := by
  induction xs with
  | nil => rfl
  | cons x t ih => simp [matchCount, ih, Nat.add_comm]

theorem matchCount_comm {α : Type} [DecidableEq α] (xs ys : List α) :
    matchCount xs ys = matchCount ys xs := by
  induction xs generalizing ys with
  | nil => cases ys <;> rfl
  | cons x t ih =>
    cases ys with
    | nil => rfl
    | cons y s =>
      simp only [matchCount, ih s]
      congr 1
      by_cases h : x = y
      · subst h; rfl
      · rw [if_neg h, if_neg (fun hh => h hh.symm)]

theorem matchCount_of_const_left {α : Type} [DecidableEq α] (v : α) (xs ys : List α)
    (hc : ∀ c ∈ xs, c = v) (hlen : ys.length = xs.length) :
    matchCount xs ys = ys.count v := by
  induction xs generalizing ys with
  | nil =>
    cases ys with
    | nil => rfl
    | cons y s => simp at hlen
  | cons x t ih =>
    cases ys with
    | nil => simp at hlen
    | cons y s =>
      have hx : x = v := hc x (List.mem_cons_self x t)
      have ht : ∀ c ∈ t, c = v := fun c hcc => hc c (List.mem_cons_of_mem x hcc)
      have hls : s.length = t.length := by simpa using hlen
      subst hx
      rw [List.count_cons]
      simp only [matchCount, ih s ht hls]
      by_cases h : y = x
      · subst h; simp [Nat.add_comm]
      · rw [if_neg (fun hh => h hh.symm), if_neg (by simpa using h)]
        omega

theorem sum_map_eq_of_single {α : Type} [DecidableEq α] (l : List α) (hnd : l.Nodup)
    (v : α) (hv : v ∈ l) (f : α → ℕ) (hf : ∀ c ∈ l, ¬ c = v → f c = 0) :
    (l.map f).sum = f v := by
  induction l with
  | nil => cases hv
  | cons c rest ih =>
    have hnd' := List.nodup_cons.mp hnd
    rcases List.mem_cons.mp hv with h1 | h2
    · subst h1
      have hrest : ∀ x ∈ rest.map f, x = 0 := by
        intro x hx
        obtain ⟨c', hc', hfc⟩ := List.mem_map.mp hx
        have hne : ¬ c' = v := fun hh => hnd'.1 (hh ▸ hc')
        rw [← hfc]
        exact hf c' (List.mem_cons_of_mem v hc') hne
      simp [List.sum_eq_zero hrest]
    · have hcv : ¬ c = v := fun hh => hnd'.1 (hh ▸ h2)
      have hfc : f c = 0 := hf c (List.mem_cons_self c rest) hcv
      simp [hfc, ih hnd'.2 h2 (fun c' hc' => hf c' (List.mem_cons_of_mem c hc'))]

theorem count_eq_length_of_const {α : Type} [DecidableEq α] (v : α) (xs : List α)
    (hc : ∀ c ∈ xs, c = v) : xs.count v = xs.length :=
  List.count_eq_length.mpr (fun b hb => (hc b hb).symm)

theorem sum_counts_const {α : Type} [DecidableEq α] (v : α) (xs ys : List α)
    (hc : ∀ c ∈ xs, c = v) (hx : xs ≠ []) :
    (((xs ++ ys).dedup).map (fun c => xs.count c * ys.count c)).sum
      = xs.length * ys.count v := by
  have hvxs : v ∈ xs := by
    cases xs with
    | nil => exact absurd rfl hx
    | cons x t => exact (hc x (List.mem_cons_self x t)) ▸ List.mem_cons_self x t
  have hvmem : v ∈ (xs ++ ys).dedup :=
    List.mem_dedup.mpr (List.mem_append_left ys hvxs)
  rw [sum_map_eq_of_single _ (List.nodup_dedup _) v hvmem _ ?_]
  · rw [count_eq_length_of_const v xs hc]
  · intro c hcm hne
    have hcxs : c ∉ xs := fun hmem => hne (hc c hmem)
    rw [List.count_eq_zero.mpr hcxs, Nat.zero_mul]

theorem pe_sum_comm {α : Type} [DecidableEq α] (y1 y2 : List α) :
    (((y1 ++ y2).dedup).map (fun c => y1.count c * y2.count c)).sum
      = (((y2 ++ y1).dedup).map (fun c => y2.count c * y1.count c)).sum := by
  have hperm : ((y1 ++ y2).dedup).Perm ((y2 ++ y1).dedup) :=
    (List.perm_ext_iff_of_nodup (List.nodup_dedup _) (List.nodup_dedup _)).mpr
      (by intro a; simp only [List.mem_dedup, List.mem_append]; tauto)
  calc (((y1 ++ y2).dedup).map (fun c => y1.count c * y2.count c)).sum
      = (((y2 ++ y1).dedup).map (fun c => y1.count c * y2.count c)).sum :=
        (hperm.map _).sum_eq
    _ = (((y2 ++ y1).dedup).map (fun c => y2.count c * y1.count c)).sum := by
        rw [List.map_congr_left (fun c _ => Nat.mul_comm (y1.count c) (y2.count c))]

/-- C5: when at least one of the two equal-length nonempty code series is
constant, `cohen_kappa_score` yields a defined sentinel — the `NaN`
embedded as `none` (both series constant and identical) or the value 0 —
and never an exception (the embedded computation is total). -/
theorem c5_constant_series_kappa_sentinel (y1 y2 : List Cat)
    (hlen : y1.length = y2.length) (hpos : 0 < y1.length)
    (hconst : (∃ v, ∀ c ∈ y1, c = v) ∨ (∃ v, ∀ c ∈ y2, c = v)) :
    cohen_kappa_score y1 y2 = none ∨ cohen_kappa_score y1 y2 = some 0 := by
  have hne : ¬ y1.length = 0 := Nat.pos_iff_ne_zero.mp hpos
  have hq : ((y1.length : ℚ)) ≠ 0 := by exact_mod_cast hne
  apply kappa_of_po_eq_pe y1 y2 hne
  rcases hconst with ⟨v, hv⟩ | ⟨v, hv⟩
  · rw [matchCount_of_const_left v y1 y2 hv hlen.symm,
      sum_counts_const v y1 y2 hv (by intro hnil; rw [hnil] at hpos; simp at hpos)]
    rw [pow_two, Nat.cast_mul, mul_div_mul_left _ _ hq]
  · rw [matchCount_comm, matchCount_of_const_left v y2 y1 hv hlen,
      pe_sum_comm, sum_counts_const v y2 y1 hv
        (by intro hnil; rw [hnil, List.length_nil] at hlen; omega)]
    have h2 : y2.length = y1.length := hlen.symm
    rw [h2, pow_two, Nat.cast_mul, mul_div_mul_left _ _ hq]

/-- Witness for C5: a rater column entirely "a" against a reference column
entirely "a" (end-to-end scenario 2): the kappa is the `NaN` sentinel, no
exception. -/
theorem c5_constant_series_kappa_sentinel_witness :
    cohen_kappa_score (["a", "a"] : List Cat) ["a", "a"] = none
    ∨ cohen_kappa_score (["a", "a"] : List Cat) ["a", "a"] = some 0 :=
  c5_constant_series_kappa_sentinel ["a", "a"] ["a", "a"] rfl (by decide)
    (Or.inl ⟨"a", by decide⟩)

theorem sum_sq_le (l : List ℕ) : (l.map (fun x => x * x)).sum ≤ l.sum * l.sum := by
  induction l with
  | nil => simp
  | cons a t ih =>
    simp only [List.map_cons, List.sum_cons]
    nlinarith [ih, Nat.zero_le t.sum, Nat.zero_le a]

theorem dedup_self_append_sum {α : Type} [DecidableEq α] (xs : List α) (f : α → ℕ) :
    (((xs ++ xs).dedup).map f).sum = ((xs.dedup).map f).sum := by
  have hperm : ((xs ++ xs).dedup).Perm (xs.dedup) :=
    (List.perm_ext_iff_of_nodup (List.nodup_dedup _) (List.nodup_dedup _)).mpr
      (by intro c; simp [List.mem_dedup, List.mem_append])
  exact (hperm.map f).sum_eq

theorem sum_sq_counts_lt {α : Type} [DecidableEq α] (xs : List α) (a b : α)
    (ha : a ∈ xs) (hb : b ∈ xs) (hab : ¬ a = b) :
    ((xs.dedup).map (fun c => xs.count c * xs.count c)).sum < xs.length * xs.length := by
  have had : a ∈ xs.dedup := List.mem_dedup.mpr ha
  have hperm : xs.dedup.Perm (a :: xs.dedup.erase a) := List.perm_cons_erase had
  have hbT : b ∈ xs.dedup.erase a :=
    (List.mem_erase_of_ne (fun hh => hab hh.symm)).mpr (List.mem_dedup.mpr hb)
  have hsum_count : xs.count a + ((xs.dedup.erase a).map (fun c => xs.count c)).sum
      = xs.length := by
    have h1 : ((xs.dedup).map (fun c => xs.count c)).sum = xs.length :=
      List.sum_map_count_dedup_eq_length xs
    have h2 := (hperm.map (fun c => xs.count c)).sum_eq
    simp only [List.map_cons, List.sum_cons] at h2
    omega
  have hsq : ((xs.dedup).map (fun c => xs.count c * xs.count c)).sum
      = xs.count a * xs.count a
        + ((xs.dedup.erase a).map (fun c => xs.count c * xs.count c)).sum := by
    have h2 := (hperm.map (fun c => xs.count c * xs.count c)).sum_eq
    simpa using h2
  have hsq_le : ((xs.dedup.erase a).map (fun c => xs.count c * xs.count c)).sum
      ≤ ((xs.dedup.erase a).map (fun c => xs.count c)).sum
        * ((xs.dedup.erase a).map (fun c => xs.count c)).sum := by
    have h3 := sum_sq_le ((xs.dedup.erase a).map (fun c => xs.count c))
    simpa [List.map_map, Function.comp] using h3
  have hca : 0 < xs.count a := List.count_pos_iff.mpr ha
  have hTsum : 0 < ((xs.dedup.erase a).map (fun c => xs.count c)).sum := by
    have hpermT : (xs.dedup.erase a).Perm (b :: (xs.dedup.erase a).erase b) :=
      List.perm_cons_erase hbT
    have h3 := (hpermT.map (fun c => xs.count c)).sum_eq
    simp only [List.map_cons, List.sum_cons] at h3
    have hcb : 0 < xs.count b := List.count_pos_iff.mpr hb
    omega
  rw [hsq, ← hsum_count]
  nlinarith [hsq_le, hca, hTsum]

/-- C7 (counterexample): the claim says kappa of every rater series against an
identical copy of itself is 1.0.  For the constant series ("a", "a") the
expected agreement is 1, so `cohen_kappa_score` of the series against itself
is the `NaN` sentinel (`none`), not 1. -/
theorem c7_self_kappa_constant_counterexample :
    cohen_kappa_score (["a", "a"] : List Cat) ["a", "a"] = none
    ∧ ¬ cohen_kappa_score (["a", "a"] : List Cat) ["a", "a"] = some 1 := by
  have hs : ((((["a", "a"] : List Cat) ++ ["a", "a"]).dedup).map
      (fun c => (["a", "a"] : List Cat).count c * (["a", "a"] : List Cat).count c)).sum
      = 4 := by decide
  have hc : (((((["a", "a"] : List Cat) ++ ["a", "a"]).dedup).map
      (fun c => (["a", "a"] : List Cat).count c * (["a", "a"] : List Cat).count c)).sum : ℚ)
      / (((["a", "a"] : List Cat).length : ℚ) ^ 2) = 1 := by
    rw [hs, show (["a", "a"] : List Cat).length = 2 from rfl]
    norm_num
  have hnone : cohen_kappa_score (["a", "a"] : List Cat) ["a", "a"] = none := by
    rw [cohen_kappa_score_eq (["a", "a"] : List Cat) ["a", "a"] (by decide), if_pos hc]
  exact ⟨hnone, by rw [hnone]; exact fun h => Option.noConfusion h⟩

/-- C7 (amended): for every code series that takes at least two distinct
values, Cohen's kappa of the series against an identical copy of itself is
exactly 1; for a constant series it is the `NaN` sentinel instead. -/
theorem c7_self_kappa_one_of_nonconstant (xs : List Cat) (a b : Cat)
    (ha : a ∈ xs) (hb : b ∈ xs) (hab : ¬ a = b) :
    cohen_kappa_score xs xs = some 1 := by
  have hne : ¬ xs.length = 0 := by
    intro h
    rw [List.length_eq_zero] at h
    subst h
    cases ha
  have hq : (xs.length : ℚ) ≠ 0 := by exact_mod_cast hne
  have hqpos : (0 : ℚ) < (xs.length : ℚ) := by
    exact_mod_cast Nat.pos_of_ne_zero hne
  have hlt : ((xs.dedup).map (fun c => xs.count c * xs.count c)).sum
      < xs.length * xs.length := sum_sq_counts_lt xs a b ha hb hab
  have hpe_lt : ((((xs ++ xs).dedup).map (fun c => xs.count c * xs.count c)).sum : ℚ)
      / ((xs.length : ℚ) ^ 2) < 1 := by
    rw [dedup_self_append_sum xs (fun c => xs.count c * xs.count c),
      div_lt_one (pow_pos hqpos 2), pow_two]
    exact_mod_cast hlt
  have hpe_ne : ¬ ((((xs ++ xs).dedup).map (fun c => xs.count c * xs.count c)).sum : ℚ)
      / ((xs.length : ℚ) ^ 2) = 1 := ne_of_lt hpe_lt
  rw [cohen_kappa_score_eq xs xs hne, if_neg hpe_ne]
  congr 1
  rw [matchCount_self, div_self hq]
  exact div_self (sub_ne_zero_of_ne (Ne.symm hpe_ne))

/-- Witness for C7's amended theorem: a two-valued series against itself. -/
theorem c7_self_kappa_one_of_nonconstant_witness :
    cohen_kappa_score (["a", "b"] : List Cat) ["a", "b"] = some 1 :=
  c7_self_kappa_one_of_nonconstant ["a", "b"] "a" "b" (by decide) (by decide) (by decide)

/-- C8 (counterexample): the claim says every place showing a corrected or raw
p-value also states the significance marker.  At concrete p-values, the first
report line (the raw inter-rater t-test p-value of line 75) displays a p-value
with no marker, so the universal claim fails. -/
theorem c8_raw_p_shown_without_marker :
    ¬ ∀ d ∈ comparisonReportPDisplays 1 1 1 1 1 1 1 1,
        d.symbol = some (get_significance_symbol d.p) := by
  intro h
  exact Option.noConfusion
    (h ⟨"Inter-rater Comparison", false, 1, none⟩ (List.mem_cons_self _ _))

/-- C8 (amended): every Benjamini-Hochberg-corrected p-value line of the
report states the marker produced by the symbol function for its p-value, and
every marker that is displayed (also on the Mann-Whitney lines) is the symbol
function's output for the p-value of the same line; the raw t-test and Z-test
p-value lines display no marker. -/
theorem c8_corrected_p_with_marker (p1 p2 p3 c0 c1 c2 m1 m2 : ℚ) :
    ∀ d ∈ comparisonReportPDisplays p1 p2 p3 c0 c1 c2 m1 m2,
      (d.corrected = true → d.symbol = some (get_significance_symbol d.p))
      ∧ (∀ s, d.symbol = some s → s = get_significance_symbol d.p) := by
  intro d hd
  simp only [comparisonReportPDisplays, List.mem_cons, List.not_mem_nil, or_false] at hd
  rcases hd with rfl | rfl | rfl | rfl | rfl | rfl | rfl | rfl <;> simp

/-- Witness for C8's amended theorem at concrete p-values. -/
theorem c8_corrected_p_with_marker_witness :
    (⟨"Inter-rater Comparison (Corrected)", true, 1 / 2,
        some (get_significance_symbol (1 / 2))⟩ : PDisplay).symbol
      = some (get_significance_symbol
          (⟨"Inter-rater Comparison (Corrected)", true, 1 / 2,
            some (get_significance_symbol (1 / 2))⟩ : PDisplay).p) := by
  have h := c8_corrected_p_with_marker (1 / 2) (1 / 2) (1 / 2) (1 / 2) (1 / 2) (1 / 2)
    (1 / 2) (1 / 2)
    ⟨"Inter-rater Comparison (Corrected)", true, 1 / 2, some (get_significance_symbol (1 / 2))⟩
    (List.mem_cons_of_mem _ (List.mem_cons_of_mem _ (List.mem_cons_of_mem _
      (List.mem_cons_self _ _))))
  exact h.1 rfl

/-! ## Helper lemmas for path sanitization -/

/-- Whether a character list contains `'a'` immediately followed by the
combining acute accent — the only NFKC-composable adjacency in the modelled
fragment. -/
def hasPat : List Char → Bool
  | x :: y :: rest => ((x == 'a') && (y == acuteChar)) || hasPat (y :: rest)
  | _ => false

theorem hasPat_cons_of_ne (c : Char) (l : List Char) (hc : ¬ c = 'a') :
    hasPat (c :: l) = hasPat l := by
  cases l with
  | nil => rfl
  | cons y r =>
    show (((c == 'a') && (y == acuteChar)) || hasPat (y :: r)) = hasPat (y :: r)
    rw [beq_eq_false_iff_ne.mpr hc, Bool.false_and, Bool.false_or]

theorem hasPat_tail {c : Char} {l : List Char} (h : hasPat (c :: l) = false) :
    hasPat l = false := by
  cases l with
  | nil => rfl
  | cons y r =>
    have : (((c == 'a') && (y == acuteChar)) || hasPat (y :: r)) = false := h
    exact (Bool.or_eq_false_iff.mp this).2

theorem hasPat_cons_cons_false {x y : Char} {r : List Char}
    (h : hasPat (x :: y :: r) = false) :
    ((x == 'a') && (y == acuteChar)) = false :=
  (Bool.or_eq_false_iff.mp h).1

theorem nfkc_head (c : Char) (l : List Char) :
    (nfkc (c :: l)).head? = some c ∨ (nfkc (c :: l)).head? = some aAcuteChar := by
  cases l with
  | nil => left; rfl
  | cons y r =>
    by_cases h : c = 'a' ∧ y = acuteChar
    · right
      show (nfkc (c :: y :: r)).head? = some aAcuteChar
      rw [nfkc, if_pos h]
      rfl
    · left
      show (nfkc (c :: y :: r)).head? = some c
      rw [nfkc, if_neg h]
      rfl

theorem nfkc_hasPat_false : ∀ l : List Char, hasPat (nfkc l) = false
  | [] => rfl
  | [_] => rfl
  | c₁ :: c₂ :: rest => by
    by_cases h : c₁ = 'a' ∧ c₂ = acuteChar
    · rw [nfkc, if_pos h, hasPat_cons_of_ne aAcuteChar _ (by decide)]
      exact nfkc_hasPat_false rest
    · rw [nfkc, if_neg h]
      have htail : hasPat (nfkc (c₂ :: rest)) = false := nfkc_hasPat_false (c₂ :: rest)
      cases hh : nfkc (c₂ :: rest) with
      | nil => rfl
      | cons d t =>
        have hd : d = c₂ ∨ d = aAcuteChar := by
          have := nfkc_head c₂ rest
          rw [hh] at this
          rcases this with h1 | h1
          · exact Or.inl (Option.some.inj h1)
          · exact Or.inr (Option.some.inj h1)
        rw [hh] at htail
        show (((c₁ == 'a') && (d == acuteChar)) || hasPat (d :: t)) = false
        rw [htail, Bool.or_false]
        by_cases hc1 : c₁ = 'a'
        · have hc2 : ¬ c₂ = acuteChar := fun hcc => h ⟨hc1, hcc⟩
          have hdne : ¬ d = acuteChar := by
            rcases hd with rfl | rfl
            · exact hc2
            · decide
          rw [beq_eq_false_iff_ne.mpr hdne, Bool.and_false]
        · rw [beq_eq_false_iff_ne.mpr hc1, Bool.false_and]

theorem nfkc_fixed_of_no_pat : ∀ l : List Char, hasPat l = false → nfkc l = l
  | [], _ => rfl
  | [_], _ => rfl
  | c₁ :: c₂ :: rest, h => by
    have hpair : ((c₁ == 'a') && (c₂ == acuteChar)) = false := hasPat_cons_cons_false h
    have hnot : ¬ (c₁ = 'a' ∧ c₂ = acuteChar) := by
      rintro ⟨rfl, rfl⟩
      simp at hpair
    rw [nfkc, if_neg hnot,
      nfkc_fixed_of_no_pat (c₂ :: rest) (hasPat_tail h)]

theorem nfkc_mem : ∀ (l : List Char) (c : Char), c ∈ nfkc l → c ∈ l ∨ c = aAcuteChar
  | [], _, h => by cases h
  | [x], c, h => by
    rcases List.mem_singleton.mp h with rfl
    exact Or.inl (List.mem_singleton.mpr rfl)
  | c₁ :: c₂ :: rest, c, h => by
    by_cases hp : c₁ = 'a' ∧ c₂ = acuteChar
    · rw [nfkc, if_pos hp] at h
      rcases List.mem_cons.mp h with rfl | h2
      · exact Or.inr rfl
      · rcases nfkc_mem rest c h2 with h3 | h3
        · exact Or.inl (List.mem_cons_of_mem _ (List.mem_cons_of_mem _ h3))
        · exact Or.inr h3
    · rw [nfkc, if_neg hp] at h
      rcases List.mem_cons.mp h with rfl | h2
      · exact Or.inl (List.mem_cons_self _ _)
      · rcases nfkc_mem (c₂ :: rest) c h2 with h3 | h3
        · exact Or.inl (List.mem_cons_of_mem _ h3)
        · exact Or.inr h3

theorem filter_ctrl_eq_self (l : List Char) (h : ∀ c ∈ l, isUnicodeControl c = false) :
    l.filter (fun c => !(isUnicodeControl c)) = l :=
  List.filter_eq_self.mpr (fun c hc => by rw [h c hc]; rfl)

theorem nfkc_ctrl_free (l : List Char) (h : ∀ c ∈ l, isUnicodeControl c = false) :
    ∀ c ∈ nfkc l, isUnicodeControl c = false := by
  intro c hc
  rcases nfkc_mem l c hc with h1 | rfl
  · exact h c h1
  · decide

theorem splitSlash_ne_nil : ∀ l : List Char, ∃ h t, splitSlash l = h :: t
  | [] => ⟨[], [], rfl⟩
  | c :: rest => by
    by_cases hc : c = '/'
    · exact ⟨[], splitSlash rest, by rw [splitSlash, if_pos hc]⟩
    · obtain ⟨h, t, hht⟩ := splitSlash_ne_nil rest
      exact ⟨c :: h, t, by rw [splitSlash, if_neg hc, hht]⟩

theorem splitSlash_mem_noSlash : ∀ l g : List Char, g ∈ splitSlash l → '/' ∉ g
  | [], g, hg => by
    simp only [splitSlash, List.mem_singleton] at hg
    subst hg
    simp
  | c :: rest, g, hg => by
    by_cases hc : c = '/'
    · rw [splitSlash, if_pos hc] at hg
      rcases List.mem_cons.mp hg with rfl | h2
      · simp
      · exact splitSlash_mem_noSlash rest g h2
    · rw [splitSlash, if_neg hc] at hg
      obtain ⟨h, t, hht⟩ := splitSlash_ne_nil rest
      rw [hht] at hg
      rcases List.mem_cons.mp hg with rfl | h2
      · intro hmem
        rcases List.mem_cons.mp hmem with heq | h3
        · exact hc heq.symm
        · exact splitSlash_mem_noSlash rest h (by rw [hht]; exact List.mem_cons_self h t) h3
      · exact splitSlash_mem_noSlash rest g (by rw [hht]; exact List.mem_cons_of_mem h h2)

theorem splitSlash_mem_chars : ∀ l g : List Char, g ∈ splitSlash l → ∀ c ∈ g, c ∈ l
  | [], g, hg => by
    simp only [splitSlash, List.mem_singleton] at hg
    subst hg
    intro c hc
    cases hc
  | c₀ :: rest, g, hg => by
    by_cases hc : c₀ = '/'
    · rw [splitSlash, if_pos hc] at hg
      rcases List.mem_cons.mp hg with rfl | h2
      · intro c hc'; cases hc'
      · intro c hc'
        exact List.mem_cons_of_mem _ (splitSlash_mem_chars rest g h2 c hc')
    · rw [splitSlash, if_neg hc] at hg
      obtain ⟨h, t, hht⟩ := splitSlash_ne_nil rest
      rw [hht] at hg
      rcases List.mem_cons.mp hg with rfl | h2
      · intro c hc'
        rcases List.mem_cons.mp hc' with rfl | h3
        · exact List.mem_cons_self _ _
        · exact List.mem_cons_of_mem _
            (splitSlash_mem_chars rest h (by rw [hht]; exact List.mem_cons_self h t) c h3)
      · intro c hc'
        exact List.mem_cons_of_mem _
          (splitSlash_mem_chars rest g (by rw [hht]; exact List.mem_cons_of_mem h h2) c hc')

theorem splitSlash_head (l : List Char) (y : Char) (h' : List Char)
    (t : List (List Char)) (hh : splitSlash l = (y :: h') :: t) : l.head? = some y := by
  cases l with
  | nil => simp [splitSlash] at hh
  | cons c rest =>
    by_cases hc : c = '/'
    · rw [splitSlash, if_pos hc] at hh
      injection hh with h1 _
      exact absurd h1.symm (List.cons_ne_nil y h')
    · rw [splitSlash, if_neg hc] at hh
      obtain ⟨hd, tl, hht⟩ := splitSlash_ne_nil rest
      rw [hht] at hh
      injection hh with h1 _
      injection h1 with hcy _
      rw [hcy]
      rfl

theorem splitSlash_hasPat : ∀ l g : List Char, hasPat l = false → g ∈ splitSlash l →
    hasPat g = false
  | [], g, _, hg => by
    simp only [splitSlash, List.mem_singleton] at hg
    subst hg
    rfl
  | c :: rest, g, hp, hg => by
    have hrest : hasPat rest = false := hasPat_tail hp
    by_cases hc : c = '/'
    · rw [splitSlash, if_pos hc] at hg
      rcases List.mem_cons.mp hg with rfl | h2
      · rfl
      · exact splitSlash_hasPat rest g hrest h2
    · rw [splitSlash, if_neg hc] at hg
      obtain ⟨hd, tl, hht⟩ := splitSlash_ne_nil rest
      rw [hht] at hg
      rcases List.mem_cons.mp hg with rfl | h2
      · have hhd : hasPat hd = false :=
          splitSlash_hasPat rest hd hrest (by rw [hht]; exact List.mem_cons_self _ _)
        cases hd with
        | nil => rfl
        | cons y h' =>
          have hy : rest.head? = some y := splitSlash_head rest y h' tl hht
          cases rest with
          | nil => simp at hy
          | cons r0 rest' =>
            have hr0 : r0 = y := by simpa using hy
            have hpair := hasPat_cons_cons_false hp
            rw [hr0] at hpair
            show (((c == 'a') && (y == acuteChar)) || hasPat (y :: h')) = false
            rw [hpair, Bool.false_or]
            exact hhd
      · exact splitSlash_hasPat rest g hrest (by rw [hht]; exact List.mem_cons_of_mem hd h2)

theorem joinSlash_mem : ∀ (cs : List (List Char)) (c : Char), c ∈ joinSlash cs →
    c = '/' ∨ ∃ g ∈ cs, c ∈ g
  | [], _, h => by cases h
  | [g], c, h => Or.inr ⟨g, List.mem_singleton.mpr rfl, h⟩
  | g :: g' :: t, c, h => by
    rw [joinSlash] at h
    rcases List.mem_append.mp h with h1 | h2
    · exact Or.inr ⟨g, List.mem_cons_self _ _, h1⟩
    · rcases List.mem_cons.mp h2 with rfl | h3
      · exact Or.inl rfl
      · rcases joinSlash_mem (g' :: t) c h3 with h4 | ⟨g'', hg'', hcg⟩
        · exact Or.inl h4
        · exact Or.inr ⟨g'', List.mem_cons_of_mem _ hg'', hcg⟩

theorem hasPat_append_slash : ∀ g l : List Char,
    hasPat (g ++ '/' :: l) = (hasPat g || hasPat l)
  | [], l => by
    rw [List.nil_append, hasPat_cons_of_ne '/' l (by decide)]
    rfl
  | [x], l => by
    show (((x == 'a') && ('/' == acuteChar)) || hasPat ('/' :: l))
      = (hasPat [x] || hasPat l)
    rw [hasPat_cons_of_ne '/' l (by decide),
      show ('/' == acuteChar) = false from by decide, Bool.and_false, Bool.false_or]
    rfl
  | x :: y :: g', l => by
    show (((x == 'a') && (y == acuteChar)) || hasPat ((y :: g') ++ '/' :: l))
      = ((((x == 'a') && (y == acuteChar)) || hasPat (y :: g')) || hasPat l)
    rw [hasPat_append_slash (y :: g') l, Bool.or_assoc]

theorem hasPat_joinSlash : ∀ cs : List (List Char),
    (∀ g ∈ cs, hasPat g = false) → hasPat (joinSlash cs) = false
  | [], _ => rfl
  | [g], h => h g (List.mem_singleton.mpr rfl)
  | g :: g' :: t, h => by
    rw [joinSlash, hasPat_append_slash g (joinSlash (g' :: t)),
      h g (List.mem_cons_self _ _),
      hasPat_joinSlash (g' :: t) (fun x hx => h x (List.mem_cons_of_mem _ hx))]
    rfl

theorem hasPat_replicate_slash : ∀ (k : Nat) (l : List Char),
    hasPat (List.replicate k '/' ++ l) = hasPat l
  | 0, l => by rw [List.replicate_zero, List.nil_append]
  | k + 1, l => by
    rw [List.replicate_succ, List.cons_append, hasPat_cons_of_ne '/' _ (by decide),
      hasPat_replicate_slash k l]

theorem mem_of_getLast?_eq {α : Type} {l : List α} {a : α} (h : l.getLast? = some a) :
    a ∈ l := by
  obtain ⟨hne, heq⟩ := List.mem_getLast?_eq_getLast (l := l) (x := a) (by rw [h]; rfl)
  rw [heq]
  exact List.getLast_mem hne

theorem reduceComps_mem : ∀ (comps : List (List Char)) (k : Nat)
    (acc : List (List Char)) (g : List Char),
    g ∈ reduceComps k acc comps → g ∈ acc ∨ g ∈ comps
  | [], _, _, _, h => Or.inl h
  | comp :: rest, k, acc, g, h => by
    by_cases h1 : comp = [] ∨ comp = dotComp
    · rw [reduceComps, if_pos h1] at h
      rcases reduceComps_mem rest k acc g h with h3 | h3
      · exact Or.inl h3
      · exact Or.inr (List.mem_cons_of_mem _ h3)
    · by_cases h2 : ¬ comp = dotdotComp ∨ (k = 0 ∧ acc = [])
          ∨ acc.getLast? = some dotdotComp
      · rw [reduceComps, if_neg h1, if_pos h2] at h
        rcases reduceComps_mem rest k (acc ++ [comp]) g h with h3 | h3
        · rcases List.mem_append.mp h3 with h4 | h4
          · exact Or.inl h4
          · rcases List.mem_singleton.mp h4 with rfl
            exact Or.inr (List.mem_cons_self _ _)
        · exact Or.inr (List.mem_cons_of_mem _ h3)
      · rw [reduceComps, if_neg h1, if_neg h2] at h
        rcases reduceComps_mem rest k acc.dropLast g h with h3 | h3
        · exact Or.inl (List.dropLast_subset acc h3)
        · exact Or.inr (List.mem_cons_of_mem _ h3)

/-- Every component the loop keeps is nonempty, differs from `"."` and
contains no slash. -/
theorem reduceComps_good : ∀ (comps : List (List Char)) (k : Nat)
    (acc : List (List Char)),
    (∀ g ∈ comps, '/' ∉ g) →
    (∀ g ∈ acc, ¬ g = [] ∧ ¬ g = dotComp ∧ '/' ∉ g) →
    ∀ g ∈ reduceComps k acc comps, ¬ g = [] ∧ ¬ g = dotComp ∧ '/' ∉ g
  | [], _, _, _, hacc, g, h => hacc g h
  | comp :: rest, k, acc, hcomps, hacc, g, h => by
    have hrest : ∀ g ∈ rest, '/' ∉ g := fun x hx => hcomps x (List.mem_cons_of_mem _ hx)
    by_cases h1 : comp = [] ∨ comp = dotComp
    · rw [reduceComps, if_pos h1] at h
      exact reduceComps_good rest k acc hrest hacc g h
    · by_cases h2 : ¬ comp = dotdotComp ∨ (k = 0 ∧ acc = [])
          ∨ acc.getLast? = some dotdotComp
      · rw [reduceComps, if_neg h1, if_pos h2] at h
        refine reduceComps_good rest k (acc ++ [comp]) hrest ?_ g h
        intro x hx
        rcases List.mem_append.mp hx with h4 | h4
        · exact hacc x h4
        · rcases List.mem_singleton.mp h4 with rfl
          exact ⟨fun hh => h1 (Or.inl hh), fun hh => h1 (Or.inr hh),
            hcomps x (List.mem_cons_self _ _)⟩
      · rw [reduceComps, if_neg h1, if_neg h2] at h
        exact reduceComps_good rest k acc.dropLast hrest
          (fun x hx => hacc x (List.dropLast_subset acc hx)) g h

/-- For an absolute path (`k ≠ 0`) the loop never keeps a `".."` component. -/
theorem reduceComps_no_dotdot : ∀ (comps : List (List Char)) (k : Nat)
    (acc : List (List Char)), ¬ k = 0 → dotdotComp ∉ acc →
    dotdotComp ∉ reduceComps k acc comps
  | [], _, _, _, hacc => hacc
  | comp :: rest, k, acc, hk, hacc => by
    by_cases h1 : comp = [] ∨ comp = dotComp
    · rw [reduceComps, if_pos h1]
      exact reduceComps_no_dotdot rest k acc hk hacc
    · by_cases h2 : ¬ comp = dotdotComp ∨ (k = 0 ∧ acc = [])
          ∨ acc.getLast? = some dotdotComp
      · rw [reduceComps, if_neg h1, if_pos h2]
        refine reduceComps_no_dotdot rest k (acc ++ [comp]) hk ?_
        intro hx
        rcases List.mem_append.mp hx with h4 | h4
        · exact hacc h4
        · rcases List.mem_singleton.mp h4 with h5
          rcases h2 with h6 | ⟨h6, _⟩ | h6
          · exact h6 h5.symm
          · exact hk h6
          · exact hacc (mem_of_getLast?_eq h6)
      · rw [reduceComps, if_neg h1, if_neg h2]
        exact reduceComps_no_dotdot rest k acc.dropLast hk
          (fun hx => hacc (List.dropLast_subset acc hx))

/-- The kept components of a relative path are a run of `".."`s followed by
components that are not `".."`. -/
theorem reduceComps_ddPrefix : ∀ (comps : List (List Char)) (acc : List (List Char)),
    (∃ m ds, acc = List.replicate m dotdotComp ++ ds ∧ dotdotComp ∉ ds) →
    ∃ m ds, reduceComps 0 acc comps = List.replicate m dotdotComp ++ ds
      ∧ dotdotComp ∉ ds
  | [], _, hacc => hacc
  | comp :: rest, acc, hacc => by
    by_cases h1 : comp = [] ∨ comp = dotComp
    · rw [reduceComps, if_pos h1]
      exact reduceComps_ddPrefix rest acc hacc
    · by_cases h2 : ¬ comp = dotdotComp ∨ ((0 : Nat) = 0 ∧ acc = [])
          ∨ acc.getLast? = some dotdotComp
      · rw [reduceComps, if_neg h1, if_pos h2]
        refine reduceComps_ddPrefix rest (acc ++ [comp]) ?_
        obtain ⟨m, ds, hmd, hds⟩ := hacc
        by_cases hcomp : comp = dotdotComp
        · subst hcomp
          rcases h2 with h6 | ⟨_, h6⟩ | h6
          · exact absurd rfl h6
          · exact ⟨1, [], by rw [h6]; rfl, by simp⟩
          · have hds_nil : ds = [] := by
              by_contra hne
              rw [hmd, List.getLast?_append_of_ne_nil _ hne] at h6
              exact hds (mem_of_getLast?_eq h6)
            refine ⟨m + 1, [], ?_, by simp⟩
            rw [hmd, hds_nil, List.append_nil, List.append_nil, List.replicate_succ']
        · refine ⟨m, ds ++ [comp], ?_, ?_⟩
          · rw [hmd, List.append_assoc]
          · intro hx
            rcases List.mem_append.mp hx with h4 | h4
            · exact hds h4
            · exact hcomp (List.mem_singleton.mp h4).symm
      · rw [reduceComps, if_neg h1, if_neg h2]
        refine reduceComps_ddPrefix rest acc.dropLast ?_
        obtain ⟨m, ds, hmd, hds⟩ := hacc
        by_cases hds_nil : ds = []
        · subst hds_nil
          rw [List.append_nil] at hmd
          cases m with
          | zero => exact ⟨0, [], by rw [hmd]; rfl, by simp⟩
          | succ m' =>
            refine ⟨m', [], ?_, by simp⟩
            rw [hmd, List.replicate_succ', List.dropLast_concat, List.append_nil]
        · refine ⟨m, ds.dropLast, ?_, fun hx => hds (List.dropLast_subset ds hx)⟩
          rw [hmd, List.dropLast_append_of_ne_nil _ hds_nil]

theorem reduceComps_skip_empties : ∀ (m : Nat) (k : Nat) (acc rest : List (List Char)),
    reduceComps k acc (List.replicate m [] ++ rest) = reduceComps k acc rest
  | 0, _, _, _ => by rw [List.replicate_zero, List.nil_append]
  | m + 1, k, acc, rest => by
    rw [List.replicate_succ, List.cons_append, reduceComps, if_pos (Or.inl rfl)]
    exact reduceComps_skip_empties m k acc rest

theorem reduceComps_all_good_nondd : ∀ (cs : List (List Char)) (k : Nat)
    (acc : List (List Char)),
    (∀ g ∈ cs, ¬ g = [] ∧ ¬ g = dotComp ∧ ¬ g = dotdotComp) →
    reduceComps k acc cs = acc ++ cs
  | [], _, acc, _ => by rw [reduceComps, List.append_nil]
  | g :: rest, k, acc, h => by
    obtain ⟨h1, h2, h3⟩ := h g (List.mem_cons_self _ _)
    rw [reduceComps, if_neg (by tauto), if_pos (Or.inl h3),
      reduceComps_all_good_nondd rest k (acc ++ [g])
        (fun x hx => h x (List.mem_cons_of_mem _ hx)),
      List.append_assoc, List.singleton_append]

theorem reduceComps_dds : ∀ (m j : Nat) (ds : List (List Char)),
    (∀ g ∈ ds, ¬ g = [] ∧ ¬ g = dotComp ∧ ¬ g = dotdotComp) →
    reduceComps 0 (List.replicate j dotdotComp) (List.replicate m dotdotComp ++ ds)
      = List.replicate (j + m) dotdotComp ++ ds
  | 0, j, ds, h => by
    rw [List.replicate_zero, List.nil_append, reduceComps_all_good_nondd ds 0 _ h,
      Nat.add_zero]
  | m + 1, j, ds, h => by
    have hcond : ¬ dotdotComp = dotdotComp ∨ ((0 : Nat) = 0
        ∧ List.replicate j dotdotComp = [])
        ∨ (List.replicate j dotdotComp).getLast? = some dotdotComp := by
      cases j with
      | zero => exact Or.inr (Or.inl ⟨rfl, rfl⟩)
      | succ j' =>
        refine Or.inr (Or.inr ?_)
        rw [List.replicate_succ']
        exact List.getLast?_concat _
    rw [List.replicate_succ, List.cons_append, reduceComps,
      if_neg (by decide), if_pos hcond, ← List.replicate_succ',
      reduceComps_dds m (j + 1) ds h,
      show j + 1 + m = j + (m + 1) from by omega]

theorem splitSlash_noSlash : ∀ g : List Char, '/' ∉ g → splitSlash g = [g]
  | [], _ => rfl
  | c :: t, h => by
    have hc : ¬ c = '/' := fun hh => h (by rw [hh]; exact List.mem_cons_self _ _)
    rw [splitSlash, if_neg hc,
      splitSlash_noSlash t (fun hm => h (List.mem_cons_of_mem _ hm))]

theorem splitSlash_append_noSlash : ∀ (g l h : List Char) (tl : List (List Char)),
    '/' ∉ g → splitSlash l = h :: tl → splitSlash (g ++ l) = (g ++ h) :: tl
  | [], l, h, tl, _, hl => by simpa using hl
  | c :: g', l, h, tl, hg, hl => by
    have hc : ¬ c = '/' := fun hh => hg (by rw [hh]; exact List.mem_cons_self _ _)
    rw [List.cons_append, splitSlash, if_neg hc,
      splitSlash_append_noSlash g' l h tl (fun hm => hg (List.mem_cons_of_mem _ hm)) hl]
    rfl

theorem splitSlash_join : ∀ cs : List (List Char), cs ≠ [] →
    (∀ g ∈ cs, '/' ∉ g) → splitSlash (joinSlash cs) = cs
  | [], h, _ => absurd rfl h
  | [g], _, hg => by
    rw [joinSlash, splitSlash_noSlash g (hg g (List.mem_singleton.mpr rfl))]
  | g :: g' :: t, _, hg => by
    rw [joinSlash]
    have hrest : splitSlash (joinSlash (g' :: t)) = g' :: t :=
      splitSlash_join (g' :: t) (List.cons_ne_nil _ _)
        (fun x hx => hg x (List.mem_cons_of_mem _ hx))
    have hsplit : splitSlash ('/' :: joinSlash (g' :: t)) = [] :: g' :: t := by
      rw [splitSlash, if_pos rfl, hrest]
    rw [splitSlash_append_noSlash g ('/' :: joinSlash (g' :: t)) [] (g' :: t)
      (hg g (List.mem_cons_self _ _)) hsplit, List.append_nil]

theorem splitSlash_replicate_slash : ∀ (k : Nat) (l : List Char),
    splitSlash (List.replicate k '/' ++ l) = List.replicate k [] ++ splitSlash l
  | 0, l => by rw [List.replicate_zero, List.replicate_zero, List.nil_append, List.nil_append]
  | k + 1, l => by
    rw [List.replicate_succ, List.cons_append, splitSlash, if_pos rfl,
      splitSlash_replicate_slash k l, List.replicate_succ, List.cons_append]

theorem normpath_spec (p : List Char) (hp : ¬ p = []) :
    normpath p = (if List.replicate (initialSlashes p) '/'
        ++ joinSlash (reduceComps (initialSlashes p) [] (splitSlash p)) = []
      then dotComp
      else List.replicate (initialSlashes p) '/'
        ++ joinSlash (reduceComps (initialSlashes p) [] (splitSlash p))) := by
  rw [normpath, if_neg hp]

theorem initialSlashes_cases (p : List Char) :
    initialSlashes p = 0 ∨ initialSlashes p = 1 ∨ initialSlashes p = 2 := by
  rw [initialSlashes]
  by_cases h1 : p.head? = some '/'
  · rw [if_pos h1]
    by_cases h2 : p.take 2 = ['/', '/'] ∧ ¬ p.take 3 = ['/', '/', '/']
    · rw [if_pos h2]; exact Or.inr (Or.inr rfl)
    · rw [if_neg h2]; exact Or.inr (Or.inl rfl)
  · rw [if_neg h1]; exact Or.inl rfl

theorem initialSlashes_replicate (k : Nat) (hk : k = 0 ∨ k = 1 ∨ k = 2)
    (ch : Char) (hch : ¬ ch = '/') (t : List Char) :
    initialSlashes (List.replicate k '/' ++ ch :: t) = k := by
  rcases hk with rfl | rfl | rfl
  · show initialSlashes (ch :: t) = 0
    have hcond : ¬ ((ch :: t).head? = some '/') := fun hh => hch (by simpa using hh)
    rw [initialSlashes, if_neg hcond]
  · show initialSlashes ('/' :: ch :: t) = 1
    have h1 : ('/' :: ch :: t).head? = some '/' := rfl
    have h2 : ¬ (List.take 2 ('/' :: ch :: t) = ['/', '/']
        ∧ ¬ List.take 3 ('/' :: ch :: t) = ['/', '/', '/']) :=
      fun hcond => hch (by simpa using hcond.1)
    rw [initialSlashes, if_pos h1, if_neg h2]
  · show initialSlashes ('/' :: '/' :: ch :: t) = 2
    have h1 : ('/' :: '/' :: ch :: t).head? = some '/' := rfl
    have h2 : List.take 2 ('/' :: '/' :: ch :: t) = ['/', '/']
        ∧ ¬ List.take 3 ('/' :: '/' :: ch :: t) = ['/', '/', '/'] :=
      ⟨rfl, fun hh => hch (by simpa using hh)⟩
    rw [initialSlashes, if_pos h1, if_pos h2]

theorem joinSlash_cons_head (c : List Char) (cs : List (List Char)) :
    ∃ t, joinSlash (c :: cs) = c ++ t := by
  cases cs with
  | nil => exact ⟨[], (List.append_nil c).symm⟩
  | cons g' t' => exact ⟨'/' :: joinSlash (g' :: t'), rfl⟩

theorem normpath_idem (p : List Char) : normpath (normpath p) = normpath p := by
  by_cases hp : p = []
  · subst hp; decide
  · have hk := initialSlashes_cases p
    have hgood : ∀ g ∈ reduceComps (initialSlashes p) [] (splitSlash p),
        ¬ g = [] ∧ ¬ g = dotComp ∧ '/' ∉ g :=
      reduceComps_good (splitSlash p) (initialSlashes p) []
        (fun g hg => splitSlash_mem_noSlash p g hg)
        (fun g hg => absurd hg (List.not_mem_nil g))
    cases hcs : reduceComps (initialSlashes p) [] (splitSlash p) with
    | nil =>
      rw [normpath_spec p hp, hcs]
      rcases hk with hk0 | hk1 | hk2
      · rw [hk0]
        show normpath dotComp = dotComp
        decide
      · rw [hk1]
        show normpath ['/'] = ['/']
        decide
      · rw [hk2]
        show normpath ['/', '/'] = ['/', '/']
        decide
    | cons c cs' =>
      obtain ⟨hc_ne, hc_dot, hc_ns⟩ := hgood c (by rw [hcs]; exact List.mem_cons_self _ _)
      cases c with
      | nil => exact absurd rfl hc_ne
      | cons ch ct =>
        have hch : ¬ ch = '/' := fun hh => hc_ns (by rw [hh]; exact List.mem_cons_self _ _)
        obtain ⟨tJ, hJ⟩ := joinSlash_cons_head (ch :: ct) cs'
        set path := List.replicate (initialSlashes p) '/'
          ++ joinSlash ((ch :: ct) :: cs') with hpath
        have hpath_ne : ¬ path = [] := by
          rw [hpath, hJ]
          rcases hk with hk0 | hk1 | hk2
          · rw [hk0]; simp
          · rw [hk1]; simp
          · rw [hk2]; simp
        have hnp : normpath p = path := by
          rw [normpath_spec p hp, hcs, ← hpath, if_neg hpath_ne]
        rw [hnp]
        have hk' : initialSlashes path = initialSlashes p := by
          rw [hpath, hJ, show (ch :: ct) ++ tJ = ch :: (ct ++ tJ) from rfl]
          exact initialSlashes_replicate (initialSlashes p) hk ch hch (ct ++ tJ)
        have hsplit : splitSlash path = List.replicate (initialSlashes p) []
            ++ ((ch :: ct) :: cs') := by
          rw [hpath, splitSlash_replicate_slash,
            splitSlash_join ((ch :: ct) :: cs') (List.cons_ne_nil _ _)
              (fun g hg => (hgood g (by rw [hcs]; exact hg)).2.2)]
        have hred : reduceComps (initialSlashes p) [] (splitSlash path)
            = (ch :: ct) :: cs' := by
          rw [hsplit, reduceComps_skip_empties]
          rcases Nat.eq_zero_or_pos (initialSlashes p) with hk0 | hkpos
          · obtain ⟨m, ds, hmd, hds⟩ := reduceComps_ddPrefix (splitSlash p) []
              ⟨0, [], rfl, by simp⟩
            have hcs0 : reduceComps 0 [] (splitSlash p) = (ch :: ct) :: cs' := by
              rw [← hk0]; exact hcs
            have hcomb : (ch :: ct) :: cs' = List.replicate m dotdotComp ++ ds :=
              hcs0.symm.trans hmd
            have hgs : ∀ g ∈ ds, ¬ g = [] ∧ ¬ g = dotComp ∧ ¬ g = dotdotComp := by
              intro g hg
              have hgmem : g ∈ (ch :: ct) :: cs' := by
                rw [hcomb]; exact List.mem_append_right _ hg
              have h3 := hgood g (by rw [hcs]; exact hgmem)
              exact ⟨h3.1, h3.2.1, fun hh => hds (hh ▸ hg)⟩
            rw [hk0, hcomb]
            show reduceComps 0 (List.replicate 0 dotdotComp)
                (List.replicate m dotdotComp ++ ds)
              = List.replicate m dotdotComp ++ ds
            rw [reduceComps_dds m 0 ds hgs, Nat.zero_add]
          · have hk0' : ¬ initialSlashes p = 0 := Nat.pos_iff_ne_zero.mp hkpos
            have hnodd : dotdotComp ∉ reduceComps (initialSlashes p) [] (splitSlash p) :=
              reduceComps_no_dotdot (splitSlash p) _ [] hk0' (List.not_mem_nil _)
            rw [hcs] at hnodd
            rw [reduceComps_all_good_nondd ((ch :: ct) :: cs') (initialSlashes p) [] ?_,
              List.nil_append]
            intro g hg
            have h3 := hgood g (by rw [hcs]; exact hg)
            exact ⟨h3.1, h3.2.1, fun hh => hnodd (hh ▸ hg)⟩
        rw [normpath_spec path hpath_ne, hk', hred, ← hpath, if_neg hpath_ne]

theorem normpath_mem (l : List Char) (c : Char) (h : c ∈ normpath l) :
    c ∈ l ∨ c = '/' ∨ c = '.' := by
  by_cases hl : l = []
  · subst hl
    rw [show normpath [] = ['.'] from rfl] at h
    exact Or.inr (Or.inr (List.mem_singleton.mp h))
  · rw [normpath_spec l hl] at h
    by_cases hpath : List.replicate (initialSlashes l) '/'
        ++ joinSlash (reduceComps (initialSlashes l) [] (splitSlash l)) = []
    · rw [if_pos hpath] at h
      simp only [dotComp, List.mem_singleton] at h
      exact Or.inr (Or.inr h)
    · rw [if_neg hpath] at h
      rcases List.mem_append.mp h with h1 | h1
      · exact Or.inr (Or.inl (List.eq_of_mem_replicate h1))
      · rcases joinSlash_mem _ c h1 with h2 | ⟨g, hg, hcg⟩
        · exact Or.inr (Or.inl h2)
        · rcases reduceComps_mem (splitSlash l) _ [] g hg with h3 | h3
          · exact absurd h3 (List.not_mem_nil g)
          · exact Or.inl (splitSlash_mem_chars l g h3 c hcg)

theorem normpath_hasPat (l : List Char) (h : hasPat l = false) :
    hasPat (normpath l) = false := by
  by_cases hl : l = []
  · subst hl; decide
  · rw [normpath_spec l hl]
    by_cases hpath : List.replicate (initialSlashes l) '/'
        ++ joinSlash (reduceComps (initialSlashes l) [] (splitSlash l)) = []
    · rw [if_pos hpath]; rfl
    · rw [if_neg hpath, hasPat_replicate_slash]
      apply hasPat_joinSlash
      intro g hg
      rcases reduceComps_mem (splitSlash l) _ [] g hg with h3 | h3
      · exact absurd h3 (List.not_mem_nil g)
      · exact splitSlash_hasPat l g h h3

/-- C10 (counterexample): `clean_path` is not idempotent.  On the input
`'a'`, U+200D, U+0301 the first pass leaves the pair un-composed (U+200D
blocks the NFKC composition) and then strips U+200D, so the second pass
composes the now-adjacent `'a'` + U+0301 into U+00E1 and yields a different
string. -/
theorem c10_clean_path_not_idempotent :
    ¬ clean_path (clean_path cexPath) = clean_path cexPath := by decide

/-- C10 (amended): path sanitization is idempotent on every input that
contains no character of a `C` (control/format) general category; in general
idempotence fails exactly because stripping such a character can make a new
NFKC composition possible on a second pass. -/
theorem c10_clean_path_idempotent_on_control_free (p : List Char)
    (h : ∀ c ∈ p, isUnicodeControl c = false) :
    clean_path (clean_path p) = clean_path p := by
  have hfilter1 : (nfkc p).filter (fun c => !(isUnicodeControl c)) = nfkc p :=
    filter_ctrl_eq_self (nfkc p) (nfkc_ctrl_free p h)
  have hcp : clean_path p = normpath (nfkc p) := by rw [clean_path, hfilter1]
  have hq_ctrl : ∀ c ∈ normpath (nfkc p), isUnicodeControl c = false := by
    intro c hc
    rcases normpath_mem (nfkc p) c hc with h1 | rfl | rfl
    · exact nfkc_ctrl_free p h c h1
    · decide
    · decide
  have hq_pat : hasPat (normpath (nfkc p)) = false :=
    normpath_hasPat (nfkc p) (nfkc_hasPat_false p)
  have hq_nfkc : nfkc (normpath (nfkc p)) = normpath (nfkc p) :=
    nfkc_fixed_of_no_pat _ hq_pat
  rw [hcp, clean_path, hq_nfkc, filter_ctrl_eq_self _ hq_ctrl]
  exact normpath_idem (nfkc p)

/-- Witness for C10's amended theorem on a plain two-segment path. -/
theorem c10_clean_path_idempotent_on_control_free_witness :
    clean_path (clean_path ['a', '/', 'b']) = clean_path ['a', '/', 'b'] :=
  c10_clean_path_idempotent_on_control_free ['a', '/', 'b'] (by decide)

end CodingQuality
